/-
Verification of the Article Word Picker core of the ToonVocab application
(src/App.tsx, component ArticlePickerView).

The TypeScript source is shallowly embedded: each React handler becomes a
pure state-transformation function on an explicit `PickerState`, JS `Set`
becomes `Finset ℕ`, JS `Map` becomes an insertion-ordered association list,
and the single network side effect (the dictionary fetch in `fetchMeaning`)
is recorded in a ghost `requests` field.  JS reference (in)equality `!==` on
phrase arrays is modelled by value (in)equality on `List ℕ`; on states whose
phrases are pairwise disjoint (the reachable ones) distinct phrase objects
always have distinct contents, so the two coincide.
-/
import Mathlib

namespace ToonVocab

/-- ASCII letter test, the embedding of the JS regex `/[a-zA-Z]/` used for
the `isWord` flag and of `/[^a-zA-Z]/` used by `normalizeWord`. -/
def isAsciiAlpha (c : Char) : Bool :=
  ('a' ≤ c && c ≤ 'z') || ('A' ≤ c && c ≤ 'Z')

/-- The characters matched by the JS regex class `\s` (whitespace): the main
ASCII whitespace characters plus no-break space; exotic Unicode space code
points behave identically and are omitted from the model. -/
def jsIsSpace (c : Char) : Bool :=
  c = ' ' || c = '\t' || c = '\n' || c = '\r' ||
  c = '\x0b' || c = '\x0c' || c = ' '

/-- The fixed punctuation set of the tokenizer regex:
`[.,!?;:'"()\[\]{}—–-]` (the em dash and en dash included). -/
def isPunctChar (c : Char) : Bool :=
  c = '.' || c = ',' || c = '!' || c = '?' || c = ';' || c = ':' ||
  c = '\'' || c = '"' || c = '(' || c = ')' || c = '[' || c = ']' ||
  c = '\x7b' || c = '\x7d' || c = '—' || c = '–' || c = '-'

/-- A character at which a separator match can start (and which therefore
terminates a word piece). -/
def isSepStart (c : Char) : Bool := jsIsSpace c || isPunctChar c

/-- The three kinds of separator-or-word run the scanner below can be in
the middle of. -/
inductive RunKind where
  | space
  | punct
  | word
deriving DecidableEq, Repr

/-- One-pass scanner behind `splitText`: `run` is the (kind, accumulated
characters) of the piece currently being read, if any.  A newline outside
a whitespace run is its own piece (the leftmost `\n` alternative of the
regex wins at a match start); inside a whitespace run it is absorbed (the
greedy `\s+` match continues over it). -/
def splitTextGo : Option (RunKind × List Char) → List Char → List (List Char)
  | none, [] => []
  | some ka, [] => [ka.2]
  | none, c :: cs =>
    if c = '\n' then ['\n'] :: splitTextGo none cs
    else if jsIsSpace c then splitTextGo (some (RunKind.space, [c])) cs
    else if isPunctChar c then splitTextGo (some (RunKind.punct, [c])) cs
    else splitTextGo (some (RunKind.word, [c])) cs
  | some (RunKind.space, acc), c :: cs =>
    if jsIsSpace c then splitTextGo (some (RunKind.space, acc ++ [c])) cs
    else if isPunctChar c then acc :: splitTextGo (some (RunKind.punct, [c])) cs
    else acc :: splitTextGo (some (RunKind.word, [c])) cs
  | some (RunKind.punct, acc), c :: cs =>
    if c = '\n' then acc :: ['\n'] :: splitTextGo none cs
    else if jsIsSpace c then acc :: splitTextGo (some (RunKind.space, [c])) cs
    else if isPunctChar c then splitTextGo (some (RunKind.punct, acc ++ [c])) cs
    else acc :: splitTextGo (some (RunKind.word, [c])) cs
  | some (RunKind.word, acc), c :: cs =>
    if c = '\n' then acc :: ['\n'] :: splitTextGo none cs
    else if jsIsSpace c then acc :: splitTextGo (some (RunKind.space, [c])) cs
    else if isPunctChar c then acc :: splitTextGo (some (RunKind.punct, [c])) cs
    else splitTextGo (some (RunKind.word, acc ++ [c])) cs

/-- Embedding of `text.split(/(\n|\s+|[.,!?;:'"()\[\]{}—–-]+)/g).filter(Boolean)`.

JS `split` with a capturing separator emits, alternately, the text between
separator matches and the separator matches themselves; `filter(Boolean)`
drops the empty pieces.  The separator regex matches, leftmost-first:
a lone newline (the `\n` alternative wins over `\s+` when the match starts
at a newline), else a maximal whitespace run (which may absorb later
newlines), else a maximal punctuation run; word pieces are the maximal
runs between separator matches.  The scanner produces exactly the
non-empty pieces of that decomposition, in order. -/
def splitText (l : List Char) : List (List Char) :=
  splitTextGo none l

/-- `interface TokenInfo` from the source. -/
structure TokenInfo where
  text : String
  index : ℕ
  isWord : Bool
  isNewline : Bool
deriving DecidableEq, Repr

/-- Embedding of `tokenize`: split the text, then tag each raw token with
its emission index, the word flag (contains an ASCII letter) and the
newline flag (the token is exactly a newline). -/
def tokenize (text : String) : List TokenInfo :=
  (splitText text.data).enum.map (fun p =>
    { text := String.mk p.2
      index := p.1
      isWord := p.2.any isAsciiAlpha
      isNewline := decide (p.2 = ['\n']) })

/-- Embedding of `normalizeWord`: lowercase, then strip every character
that is not an ASCII letter.  `Char.toLower` agrees with JS `toLowerCase`
on the ASCII range, the only range that survives the filter. -/
def normalizeWord (word : String) : String :=
  String.mk ((word.data.map Char.toLower).filter isAsciiAlpha)

/-- `interface WordMeaning` from the source. -/
structure WordMeaning where
  word : String
  phonetic : Option String
  definitions : List String
  loading : Bool
  error : Option String
deriving DecidableEq, Repr

/-- The two modes of the ArticlePickerView component. -/
inductive PickerMode where
  | input
  | picking
deriving DecidableEq, Repr

/-- The state of the ArticlePickerView component: its React state hooks,
plus a ghost trace `requests` of the dictionary lookups issued by
`fetchMeaning` (the argument of each `fetch` call, in order). -/
structure PickerState where
  articleText : String
  mode : PickerMode
  tokens : List TokenInfo
  selectedIndices : Finset ℕ
  phrases : List (List ℕ)
  wordMeanings : List (String × WordMeaning)
  requests : List String
deriving DecidableEq

/-- Embedding of `getPhraseForIndex`: the first phrase whose member list
contains the position (`phrases.find(phrase => phrase.includes(index))`),
or `none` in place of JS `null`. -/
def getPhraseForIndex (st : PickerState) (index : ℕ) : Option (List ℕ) :=
  st.phrases.find? (fun phrase => decide (index ∈ phrase))

/-- `tokens[i]?.text || ''`: the text of the token at array position `i`,
or the empty string out of range. -/
def tokensTextAt (st : PickerState) (i : ℕ) : String :=
  match st.tokens.get? i with
  | some t => t.text
  | none => ""

/-- Embedding of `getPhraseText`: member texts joined by single spaces. -/
def getPhraseText (st : PickerState) (phraseIndices : List ℕ) : String :=
  String.intercalate " " (phraseIndices.map (fun i => tokensTextAt st i))

/-- The test `currentPhrase && nextPhrase && currentPhrase === nextPhrase`:
both positions have a phrase and it is the same one.  `findAdjacentPairs`
emits a pair exactly when this is false (given both selected). -/
def samePhrase (st : PickerState) (a b : ℕ) : Bool :=
  match getPhraseForIndex st a, getPhraseForIndex st b with
  | some p, some q => decide (p = q)
  | _, _ => false

/-- Embedding of `findAdjacentPairs`: walk consecutive pairs of the WORD
token subsequence; keep a pair when both positions are selected and they
are not both members of one same phrase. -/
def findAdjacentPairs (st : PickerState) : List (ℕ × ℕ) :=
  let wordTokens := st.tokens.filter (fun t => t.isWord)
  (wordTokens.zip wordTokens.tail).filterMap (fun cn =>
    if cn.1.index ∈ st.selectedIndices ∧ cn.2.index ∈ st.selectedIndices ∧
        samePhrase st cn.1.index cn.2.index = false
    then some (cn.1.index, cn.2.index)
    else none)

/-- Embedding of `handleMerge`.  Both phrase lookups are performed on the
incoming state; the two found phrases (when present) are filtered out of
the list and the combined, ascending-sorted member list is appended. -/
def handleMerge (st : PickerState) (index1 index2 : ℕ) : PickerState :=
  let phrase1 := getPhraseForIndex st index1
  let phrase2 := getPhraseForIndex st index2
  let newPhrases := st.phrases.filter
    (fun p => decide (some p ≠ phrase1 ∧ some p ≠ phrase2))
  let newPhrase :=
    match phrase1, phrase2 with
    | some p1, some p2 => (p1 ++ p2).mergeSort (fun a b => a ≤ b)
    | some p1, none => (p1 ++ [index2]).mergeSort (fun a b => a ≤ b)
    | none, some p2 => (index1 :: p2).mergeSort (fun a b => a ≤ b)
    | none, none => ([index1, index2]).mergeSort (fun a b => a ≤ b)
  { st with phrases := newPhrases ++ [newPhrase] }

/-- The synchronous prefix of `fetchMeaning`: normalize the word; if the
normalized key is empty or already cached, return unchanged; otherwise
insert the `loading` record and issue the (ghost-recorded) network
request.  The asynchronous response continuation only rewrites the entry
for this same key and is not needed by any claim. -/
def fetchMeaning (st : PickerState) (word : String) : PickerState :=
  let normalized := normalizeWord word
  if normalized = "" ∨ (st.wordMeanings.lookup normalized).isSome = true then st
  else
    { st with
      wordMeanings := st.wordMeanings ++
        [(normalized,
          { word := normalized, phonetic := none, definitions := [],
            loading := true, error := none })]
      requests := st.requests ++ [normalized] }

/-- JS `String.prototype.trim` on the character list: strip leading and
trailing whitespace. -/
def jsTrim (l : List Char) : List Char :=
  ((l.dropWhile jsIsSpace).reverse.dropWhile jsIsSpace).reverse

/-- Embedding of `handleStartPicking`: reject blank text (JS
`!articleText.trim()`), otherwise tokenize and enter picking mode with
fresh selection, phrase and definition-cache state. -/
def handleStartPicking (st : PickerState) : PickerState :=
  if jsTrim st.articleText.data = [] then st
  else
    { st with
      mode := PickerMode.picking
      tokens := tokenize st.articleText
      selectedIndices := ∅
      phrases := []
      wordMeanings := [] }

/-- Embedding of `handleWordClick`: no-op on missing or non-word tokens;
dissolve the containing phrase (erasing every member from the selection
and dropping the phrase) when there is one; otherwise toggle the single
position. -/
def handleWordClick (st : PickerState) (tokenIndex : ℕ) : PickerState :=
  match st.tokens.get? tokenIndex with
  | none => st
  | some token =>
    if token.isWord = false then st
    else
      match getPhraseForIndex st tokenIndex with
      | some phrase =>
        { st with
          selectedIndices := phrase.foldl (fun s i => s.erase i) st.selectedIndices
          phrases := st.phrases.filter (fun p => decide (p ≠ phrase)) }
      | none =>
        if tokenIndex ∈ st.selectedIndices then
          { st with selectedIndices := st.selectedIndices.erase tokenIndex }
        else
          { st with selectedIndices := insert tokenIndex st.selectedIndices }

/-- The export document of `handleExportJson` (the impure `exportedAt`
timestamp and the file download are outside the model). -/
structure ExportData where
  words : List String
  phrases : List String
deriving DecidableEq, Repr

/-- Embedding of `handleExportJson`: normalized texts of the selected
positions not covered by any phrase, deduplicated and sorted
lexicographically; phrase display texts in phrase-list order. -/
def handleExportJson (st : PickerState) : ExportData :=
  let singleWords := (Finset.sort (fun a b => a ≤ b) st.selectedIndices).filterMap
    (fun idx =>
      match getPhraseForIndex st idx with
      | some _ => none
      | none => some (normalizeWord (tokensTextAt st idx)))
  { words := singleWords.dedup.mergeSort (fun a b => a ≤ b)
    phrases := st.phrases.map (fun p => getPhraseText st p) }

/-- Embedding of `handleReset`: back to input mode, all picker state
cleared (the pasted text itself is kept, as in the source). -/
def handleReset (st : PickerState) : PickerState :=
  { st with
    mode := PickerMode.input
    tokens := []
    selectedIndices := ∅
    phrases := []
    wordMeanings := [] }


/-! ### Tokenizer lemmas -/

/-- The pending run of `splitTextGo`, as the characters already read. -/
def runChars : Option (RunKind × List Char) → List Char
  | none => []
  | some ka => ka.2

theorem splitTextGo_join :
    ∀ (l : List Char) (run : Option (RunKind × List Char)),
      (splitTextGo run l).join = runChars run ++ l := by
  intro l
  induction l with
  | nil =>
    intro run
    match run with
    | none => simp [splitTextGo, runChars]
    | some ka => simp [splitTextGo, runChars]
  | cons c cs ih =>
    intro run
    match run with
    | none =>
      rw [splitTextGo]
      by_cases h1 : c = '\n'
      · subst h1
        simp [ih, runChars]
      · rw [if_neg h1]
        by_cases h2 : jsIsSpace c = true
        · simp [h2, ih, runChars]
        · rw [if_neg h2]
          by_cases h3 : isPunctChar c = true
          · simp [h3, ih, runChars]
          · simp [h3, ih, runChars]
    | some (RunKind.space, acc) =>
      rw [splitTextGo]
      by_cases h2 : jsIsSpace c = true
      · simp [h2, ih, runChars]
      · rw [if_neg h2]
        by_cases h3 : isPunctChar c = true
        · simp [h3, ih, runChars]
        · simp [h3, ih, runChars]
    | some (RunKind.punct, acc) =>
      rw [splitTextGo]
      by_cases h1 : c = '\n'
      · subst h1
        simp [ih, runChars]
      · rw [if_neg h1]
        by_cases h2 : jsIsSpace c = true
        · simp [h2, ih, runChars]
        · rw [if_neg h2]
          by_cases h3 : isPunctChar c = true
          · simp [h3, ih, runChars]
          · simp [h3, ih, runChars]
    | some (RunKind.word, acc) =>
      rw [splitTextGo]
      by_cases h1 : c = '\n'
      · subst h1
        simp [ih, runChars]
      · rw [if_neg h1]
        by_cases h2 : jsIsSpace c = true
        · simp [h2, ih, runChars]
        · rw [if_neg h2]
          by_cases h3 : isPunctChar c = true
          · simp [h3, ih, runChars]
          · simp [h3, ih, runChars]

/-- Concatenating the pieces produced by `splitText` gives back the input. -/
theorem splitText_join (l : List Char) : (splitText l).join = l := by
  simpa [runChars] using splitTextGo_join l none

theorem data_foldl_append (ls : List String) (acc : String) :
    (ls.foldl (fun r s => r ++ s) acc).data = acc.data ++ (ls.map String.data).join := by
  induction ls generalizing acc with
  | nil => simp
  | cons a t ih => simp [List.foldl_cons, ih]

theorem string_join_data (ls : List String) :
    (String.join ls).data = (ls.map String.data).join := by
  simp [String.join, data_foldl_append]

theorem tokenize_map_data (text : String) :
    (tokenize text).map (fun t => t.text.data) = splitText text.data := by
  unfold tokenize
  rw [List.map_map]
  have h : ((fun t : TokenInfo => t.text.data) ∘ (fun p : ℕ × List Char =>
      ({ text := String.mk p.2, index := p.1, isWord := p.2.any isAsciiAlpha,
         isNewline := decide (p.2 = ['\n']) } : TokenInfo))) = Prod.snd := rfl
  rw [h]
  exact List.enumFrom_map_snd 0 (splitText text.data)

/-- C3.  Concatenating, in emission order, the `text` fields of the tokens
produced by `tokenize text` reproduces `text` exactly.  (`tokenize` is a
plain function of its input, so purity and determinism are immediate.) -/
theorem tokenize_roundtrip (text : String) :
    String.join ((tokenize text).map (fun t => t.text)) = text := by
  apply String.ext
  rw [string_join_data, List.map_map]
  have h : (String.data ∘ fun t : TokenInfo => t.text) = fun t : TokenInfo => t.text.data := rfl
  rw [h, tokenize_map_data]
  exact splitText_join text.data

/-! ### Phrase-set lemmas -/

theorem getPhraseForIndex_some {st : PickerState} {i : ℕ} {p : List ℕ}
    (h : getPhraseForIndex st i = some p) : p ∈ st.phrases ∧ i ∈ p := by
  refine ⟨List.mem_of_find?_eq_some h, ?_⟩
  have hp := List.find?_some h
  simpa using hp

theorem getPhraseForIndex_none {st : PickerState} {i : ℕ}
    (h : getPhraseForIndex st i = none) : ∀ p ∈ st.phrases, i ∉ p := by
  intro p hp
  have hall := List.find?_eq_none.mp h p hp
  simpa using hall

/-- Pairwise disjointness of the phrase list: no position is a member of
phrases at two distinct list positions. -/
def DisjPhrases (phrases : List (List ℕ)) : Prop :=
  phrases.Pairwise (fun p q => ∀ x, x ∈ p → x ∉ q)

theorem disj_rel_symm : Symmetric (fun p q : List ℕ => ∀ x, x ∈ p → x ∉ q) := by
  intro p q h x hxq hxp
  exact h x hxp hxq

theorem DisjPhrases.of_ne {phrases : List (List ℕ)} (h : DisjPhrases phrases)
    {p q : List ℕ} (hp : p ∈ phrases) (hq : q ∈ phrases) (hne : p ≠ q) :
    ∀ x, x ∈ p → x ∉ q :=
  List.Pairwise.forall disj_rel_symm h hp hq hne

/-- The phrase list produced by `handleMerge`, with the two lookups made
explicit. -/
theorem handleMerge_phrases (st : PickerState) (i j : ℕ) :
    (handleMerge st i j).phrases =
      st.phrases.filter (fun p =>
        decide (some p ≠ getPhraseForIndex st i ∧ some p ≠ getPhraseForIndex st j)) ++
      [match getPhraseForIndex st i, getPhraseForIndex st j with
       | some p1, some p2 => (p1 ++ p2).mergeSort (fun a b => a ≤ b)
       | some p1, none => (p1 ++ [j]).mergeSort (fun a b => a ≤ b)
       | none, some p2 => (i :: p2).mergeSort (fun a b => a ≤ b)
       | none, none => ([i, j]).mergeSort (fun a b => a ≤ b)] := rfl

theorem handleMerge_selectedIndices (st : PickerState) (i j : ℕ) :
    (handleMerge st i j).selectedIndices = st.selectedIndices := rfl

theorem disjPhrases_filter_append {phrases : List (List ℕ)} (h : DisjPhrases phrases)
    (pred : List ℕ → Bool) (np : List ℕ)
    (hnp : ∀ p ∈ phrases, pred p = true → ∀ x ∈ p, x ∉ np) :
    DisjPhrases (phrases.filter pred ++ [np]) := by
  unfold DisjPhrases
  rw [List.pairwise_append]
  refine ⟨h.filter pred, List.pairwise_singleton _ _, ?_⟩
  intro p hp q hq x hxp
  rw [List.mem_singleton] at hq
  subst hq
  rw [List.mem_filter] at hp
  exact hnp p hp.1 hp.2 x hxp

/-- The defensive core of the merge: disjointness of the phrase list is
preserved by `handleMerge` for arbitrary argument positions. -/
theorem disjPhrases_handleMerge {st : PickerState} (h : DisjPhrases st.phrases)
    (i j : ℕ) : DisjPhrases (handleMerge st i j).phrases := by
  rw [handleMerge_phrases]
  apply disjPhrases_filter_append h
  intro p hp hpred x hxp hxnp
  rw [decide_eq_true_iff] at hpred
  cases hph1 : getPhraseForIndex st i with
  | none =>
    cases hph2 : getPhraseForIndex st j with
    | none =>
      rw [hph1, hph2] at hxnp
      simp only [List.mem_mergeSort, List.mem_cons, List.not_mem_nil, or_false] at hxnp
      rcases hxnp with hx | hx
      · exact getPhraseForIndex_none hph1 p hp (hx ▸ hxp)
      · exact getPhraseForIndex_none hph2 p hp (hx ▸ hxp)
    | some p2 =>
      rw [hph1, hph2] at hxnp
      simp only [List.mem_mergeSort, List.mem_cons] at hxnp
      have hp2 := getPhraseForIndex_some hph2
      have hne2 : p ≠ p2 := by
        intro hEq
        rw [hph1, hph2] at hpred
        exact hpred.2 (by rw [hEq])
      rcases hxnp with hx | hx
      · exact getPhraseForIndex_none hph1 p hp (hx ▸ hxp)
      · exact DisjPhrases.of_ne h hp hp2.1 hne2 x hxp hx
  | some p1 =>
    have hp1 := getPhraseForIndex_some hph1
    have hne1 : p ≠ p1 := by
      intro hEq
      rw [hph1] at hpred
      exact hpred.1 (by rw [hEq])
    cases hph2 : getPhraseForIndex st j with
    | none =>
      rw [hph1, hph2] at hxnp
      simp only [List.mem_mergeSort, List.mem_append, List.mem_cons,
        List.not_mem_nil, or_false] at hxnp
      rcases hxnp with hx | hx
      · exact DisjPhrases.of_ne h hp hp1.1 hne1 x hxp hx
      · exact getPhraseForIndex_none hph2 p hp (hx ▸ hxp)
    | some p2 =>
      rw [hph1, hph2] at hxnp
      simp only [List.mem_mergeSort, List.mem_append] at hxnp
      have hp2 := getPhraseForIndex_some hph2
      have hne2 : p ≠ p2 := by
        intro hEq
        rw [hph1, hph2] at hpred
        exact hpred.2 (by rw [hEq])
      rcases hxnp with hx | hx
      · exact DisjPhrases.of_ne h hp hp1.1 hne1 x hxp hx
      · exact DisjPhrases.of_ne h hp hp2.1 hne2 x hxp hx

/-- Case characterization of `handleWordClick`. -/
theorem handleWordClick_cases (st : PickerState) (i : ℕ) :
    handleWordClick st i = st ∨
    (∃ phrase, getPhraseForIndex st i = some phrase ∧
      handleWordClick st i = { st with
        selectedIndices := phrase.foldl (fun s k => s.erase k) st.selectedIndices
        phrases := st.phrases.filter (fun p => decide (p ≠ phrase)) }) ∨
    (getPhraseForIndex st i = none ∧
      (handleWordClick st i = { st with selectedIndices := st.selectedIndices.erase i } ∨
       handleWordClick st i = { st with selectedIndices := insert i st.selectedIndices })) := by
  unfold handleWordClick
  cases htok : st.tokens.get? i with
  | none => exact Or.inl rfl
  | some token =>
    dsimp only
    by_cases hw : token.isWord = false
    · rw [if_pos hw]
      exact Or.inl rfl
    · rw [if_neg hw]
      cases hph : getPhraseForIndex st i with
      | some phrase =>
        dsimp only
        exact Or.inr (Or.inl ⟨phrase, rfl, rfl⟩)
      | none =>
        dsimp only
        by_cases hs : i ∈ st.selectedIndices
        · rw [if_pos hs]
          exact Or.inr (Or.inr ⟨rfl, Or.inl rfl⟩)
        · rw [if_neg hs]
          exact Or.inr (Or.inr ⟨rfl, Or.inr rfl⟩)

theorem disjPhrases_handleWordClick {st : PickerState} (h : DisjPhrases st.phrases)
    (i : ℕ) : DisjPhrases (handleWordClick st i).phrases := by
  rcases handleWordClick_cases st i with heq | ⟨phrase, _, heq⟩ | ⟨_, heq | heq⟩ <;> rw [heq]
  · exact h
  · exact h.filter _
  · exact h
  · exact h

theorem mem_foldl_erase (l : List ℕ) (s : Finset ℕ) (x : ℕ) :
    x ∈ l.foldl (fun t k => t.erase k) s ↔ x ∈ s ∧ x ∉ l := by
  induction l generalizing s with
  | nil => simp
  | cons a t ih =>
    rw [List.foldl_cons, ih]
    simp only [Finset.mem_erase, List.mem_cons]
    tauto

/-- A pair reported by the adjacency scanner has both positions selected. -/
theorem findAdjacentPairs_selected {st : PickerState} {a b : ℕ}
    (h : (a, b) ∈ findAdjacentPairs st) :
    a ∈ st.selectedIndices ∧ b ∈ st.selectedIndices := by
  unfold findAdjacentPairs at h
  simp only [List.mem_filterMap] at h
  obtain ⟨cn, _, hif⟩ := h
  by_cases hcond : (cn.1.index ∈ st.selectedIndices ∧ cn.2.index ∈ st.selectedIndices ∧
      samePhrase st cn.1.index cn.2.index = false)
  · rw [if_pos hcond] at hif
    obtain ⟨h1, h2⟩ := Prod.mk.injEq .. ▸ Option.some_injective _ hif
    exact ⟨h1 ▸ hcond.1, h2 ▸ hcond.2.1⟩
  · rw [if_neg hcond] at hif
    exact absurd hif (by simp)

/-! ### Reachability and invariants -/

/-- States reachable from a fresh picking state (empty selection, empty
phrase list, any token sequence) by toggles, merges on arbitrary position
pairs, and resets. -/
inductive Reachable : PickerState → Prop where
  | init (st : PickerState) (hsel : st.selectedIndices = ∅) (hph : st.phrases = [])
      : Reachable st
  | toggle {st : PickerState} (h : Reachable st) (i : ℕ) : Reachable (handleWordClick st i)
  | merge {st : PickerState} (h : Reachable st) (i j : ℕ) : Reachable (handleMerge st i j)
  | reset {st : PickerState} (h : Reachable st) : Reachable (handleReset st)

theorem reachable_disj {st : PickerState} (h : Reachable st) : DisjPhrases st.phrases := by
  induction h with
  | init st hsel hph =>
    rw [hph]
    exact List.Pairwise.nil
  | toggle h i ih => exact disjPhrases_handleWordClick ih i
  | merge h i j ih => exact disjPhrases_handleMerge ih i j
  | reset h ih => exact List.Pairwise.nil

/-- Every member of every phrase is in the selection set. -/
def PhraseMembersSelected (st : PickerState) : Prop :=
  ∀ p ∈ st.phrases, ∀ x ∈ p, x ∈ st.selectedIndices

/-- States reachable through the rendered UI: merges only happen through a
connector button, i.e. on a pair currently reported by the adjacency
scanner. -/
inductive UIReachable : PickerState → Prop where
  | init (st : PickerState) (hsel : st.selectedIndices = ∅) (hph : st.phrases = [])
      : UIReachable st
  | toggle {st : PickerState} (h : UIReachable st) (i : ℕ) : UIReachable (handleWordClick st i)
  | merge {st : PickerState} (h : UIReachable st) {i j : ℕ}
      (hp : (i, j) ∈ findAdjacentPairs st) : UIReachable (handleMerge st i j)
  | reset {st : PickerState} (h : UIReachable st) : UIReachable (handleReset st)

theorem uiReachable_reachable {st : PickerState} (h : UIReachable st) : Reachable st := by
  induction h with
  | init st hsel hph => exact Reachable.init st hsel hph
  | toggle h i ih => exact Reachable.toggle ih i
  | merge h hp ih => exact Reachable.merge ih _ _
  | reset h ih => exact Reachable.reset ih

theorem ui_members_selected {st : PickerState} (h : UIReachable st) :
    PhraseMembersSelected st := by
  induction h with
  | init st hsel hph =>
    intro p hp
    rw [hph] at hp
    exact absurd hp (List.not_mem_nil p)
  | toggle h i ih =>
    rename_i st
    have hdisj := reachable_disj (uiReachable_reachable h)
    rcases handleWordClick_cases st i with heq | ⟨phrase, hph, heq⟩ | ⟨hnone, heq | heq⟩ <;>
      rw [heq] <;> intro p hp x hx
    · exact ih p hp x hx
    · simp only [List.mem_filter, decide_eq_true_iff] at hp
      rw [mem_foldl_erase]
      refine ⟨ih p hp.1 x hx, ?_⟩
      exact DisjPhrases.of_ne hdisj hp.1 (getPhraseForIndex_some hph).1 hp.2 x hx
    · rw [Finset.mem_erase]
      refine ⟨?_, ih p hp x hx⟩
      intro hxi
      exact getPhraseForIndex_none hnone p hp (hxi ▸ hx)
    · exact Finset.mem_insert_of_mem (ih p hp x hx)
  | merge h hp ih =>
    rename_i st i j
    obtain ⟨hi, hj⟩ := findAdjacentPairs_selected hp
    intro p hpm x hx
    rw [handleMerge_selectedIndices]
    rw [handleMerge_phrases] at hpm
    rcases List.mem_append.mp hpm with hl | hr
    · exact ih p (List.mem_filter.mp hl).1 x hx
    · rw [List.mem_singleton] at hr
      subst hr
      cases hph1 : getPhraseForIndex st i with
      | none =>
        cases hph2 : getPhraseForIndex st j with
        | none =>
          rw [hph1, hph2] at hx
          simp only [List.mem_mergeSort, List.mem_cons, List.not_mem_nil, or_false] at hx
          rcases hx with hx | hx
          · exact hx ▸ hi
          · exact hx ▸ hj
        | some p2 =>
          rw [hph1, hph2] at hx
          simp only [List.mem_mergeSort, List.mem_cons] at hx
          rcases hx with hx | hx
          · exact hx ▸ hi
          · exact ih p2 (getPhraseForIndex_some hph2).1 x hx
      | some p1 =>
        cases hph2 : getPhraseForIndex st j with
        | none =>
          rw [hph1, hph2] at hx
          simp only [List.mem_mergeSort, List.mem_append, List.mem_cons,
            List.not_mem_nil, or_false] at hx
          rcases hx with hx | hx
          · exact ih p1 (getPhraseForIndex_some hph1).1 x hx
          · exact hx ▸ hj
        | some p2 =>
          rw [hph1, hph2] at hx
          simp only [List.mem_mergeSort, List.mem_append] at hx
          rcases hx with hx | hx
          · exact ih p1 (getPhraseForIndex_some hph1).1 x hx
          · exact ih p2 (getPhraseForIndex_some hph2).1 x hx
  | reset h ih =>
    intro p hp
    exact absurd hp (List.not_mem_nil p)

/-! ### Demonstration states -/

def demoText : String := "fast and furious driving"

/-- Fresh picking state for the article "fast and furious driving":
tokens at positions 0/2/4/6 are the words fast/and/furious/driving. -/
def demoInit : PickerState :=
  ⟨demoText, PickerMode.picking, tokenize demoText, ∅, [], [], []⟩

/-- "fast" and "and" selected and already merged into the phrase `[0, 2]`. -/
def mergeBugState : PickerState :=
  { demoInit with selectedIndices := {0, 2}, phrases := [[0, 2]] }

/-- Same configuration, used to exercise phrase dissolution by toggle. -/
def demoPhrState : PickerState :=
  { demoInit with selectedIndices := {0, 2}, phrases := [[0, 2]] }

/-! ### Claim theorems -/

unseal List.mergeSort List.merge in
/-- C1 (refuted - the code deviates here).  Invoking `handleMerge` on two
positions that already belong to the same phrase is NOT a no-op: with the
single phrase `[0, 2]`, `handleMerge st 0 2` filters that phrase out and
appends the sorted concatenation of the phrase with itself, leaving the
phrase list `[[0, 0, 2, 2]]` - every member duplicated - instead of the
unchanged `[[0, 2]]`. -/
theorem handleMerge_samePhrase_not_noop :
    mergeBugState.phrases = [[0, 2]] ∧
    (handleMerge mergeBugState 0 2).phrases = [[0, 0, 2, 2]] ∧
    (handleMerge mergeBugState 0 2).phrases ≠ mergeBugState.phrases := by
  refine ⟨rfl, rfl, ?_⟩
  decide

/-- C2.  In every state reachable from a fresh picking state by any
sequence of toggle (`handleWordClick`), merge (`handleMerge`) and reset
operations, the phrases are pairwise disjoint: no token position belongs
to two different phrases simultaneously. -/
theorem reachable_phrases_disjoint {st : PickerState} (h : Reachable st) :
    DisjPhrases st.phrases :=
  reachable_disj h

theorem reachable_phrases_disjoint_witness :
    DisjPhrases (handleMerge (handleWordClick (handleWordClick demoInit 0) 2) 0 2).phrases :=
  reachable_phrases_disjoint
    (Reachable.merge (Reachable.toggle (Reachable.toggle (Reachable.init demoInit rfl rfl) 0) 2) 0 2)

/-- C4.  If position `i` holds a WORD token that belongs to phrase `q`,
toggling `i` removes every member position of `q` from the selection set
and removes `q` itself from the phrase list - the whole phrase dissolves,
never a part of it. -/
theorem handleWordClick_dissolves_phrase {st : PickerState} {i : ℕ} {t : TokenInfo}
    (ht : st.tokens.get? i = some t) (hw : t.isWord = true) {q : List ℕ}
    (hq : getPhraseForIndex st i = some q) :
    (∀ x ∈ q, x ∉ (handleWordClick st i).selectedIndices) ∧
    q ∉ (handleWordClick st i).phrases := by
  unfold handleWordClick
  rw [ht]
  dsimp only
  rw [if_neg (by rw [hw]; simp)]
  rw [hq]
  dsimp only
  constructor
  · intro x hx hmem
    rw [mem_foldl_erase] at hmem
    exact hmem.2 hx
  · intro hmem
    rw [List.mem_filter, decide_eq_true_iff] at hmem
    exact hmem.2 rfl

theorem handleWordClick_dissolves_phrase_witness :
    (∀ x ∈ [0, 2], x ∉ (handleWordClick demoPhrState 0).selectedIndices) ∧
    [0, 2] ∉ (handleWordClick demoPhrState 0).phrases :=
  @handleWordClick_dissolves_phrase demoPhrState 0 ⟨"fast", 0, true, false⟩
    (by decide) (by decide) [0, 2] (by decide)

/-- C9 (implicit).  In every state reachable through the UI - toggles,
resets, and merges invoked only on pairs reported by the adjacency
scanner - every position belonging to some phrase is also in the
selection set: merging never strands a phrase member outside the
selection. -/
theorem uiReachable_members_selected {st : PickerState} (h : UIReachable st) :
    PhraseMembersSelected st :=
  ui_members_selected h

theorem uiReachable_members_selected_witness :
    PhraseMembersSelected (handleMerge (handleWordClick (handleWordClick demoInit 0) 2) 0 2) :=
  uiReachable_members_selected
    (UIReachable.merge (UIReachable.toggle (UIReachable.toggle
      (UIReachable.init demoInit rfl rfl) 0) 2) (by decide))

/-! ### Definition-cache theorems (C5, C10) -/

theorem lookup_append_isSome (l : List (String × WordMeaning)) (k : String) (v : WordMeaning) :
    ((l ++ [(k, v)]).lookup k).isSome = true := by
  rw [List.lookup_append]
  cases h : l.lookup k with
  | none => simp
  | some b => simp

/-- Empty state used to exercise the cache and input-validation claims. -/
def emptyCacheState : PickerState := ⟨"", PickerMode.input, [], ∅, [], [], []⟩

/-- C5.  Two consecutive `fetchMeaning` calls whose words share one
normalized form issue exactly one network request: once any record exists
for the normalized key the call returns the state unchanged, and the
second of the two calls is always absorbed by the first, whose single
request is the only one recorded. -/
theorem fetchMeaning_single_request (st : PickerState) (w1 w2 : String)
    (hn : normalizeWord w1 = normalizeWord w2) :
    ((st.wordMeanings.lookup (normalizeWord w1)).isSome = true → fetchMeaning st w1 = st) ∧
    fetchMeaning (fetchMeaning st w1) w2 = fetchMeaning st w1 ∧
    (normalizeWord w1 ≠ "" → st.wordMeanings.lookup (normalizeWord w1) = none →
      (fetchMeaning (fetchMeaning st w1) w2).requests = st.requests ++ [normalizeWord w1]) := by
  have hnoop : ∀ (s : PickerState) (w : String),
      (normalizeWord w = "" ∨ (s.wordMeanings.lookup (normalizeWord w)).isSome = true) →
      fetchMeaning s w = s := by
    intro s w hc
    unfold fetchMeaning
    rw [if_pos hc]
  have hstep : ∀ (s : PickerState) (w : String),
      ¬(normalizeWord w = "" ∨ (s.wordMeanings.lookup (normalizeWord w)).isSome = true) →
      fetchMeaning s w = { s with
        wordMeanings := s.wordMeanings ++
          [(normalizeWord w, ⟨normalizeWord w, none, [], true, none⟩)]
        requests := s.requests ++ [normalizeWord w] } := by
    intro s w hc
    unfold fetchMeaning
    rw [if_neg hc]
  by_cases hc : normalizeWord w1 = "" ∨ (st.wordMeanings.lookup (normalizeWord w1)).isSome = true
  · have h1 : fetchMeaning st w1 = st := hnoop st w1 hc
    refine ⟨fun _ => h1, ?_, ?_⟩
    · rw [h1]
      exact hnoop st w2 (by rw [← hn]; exact hc)
    · intro hne hnone
      rcases hc with hc | hc
      · exact absurd hc hne
      · rw [hnone] at hc
        exact absurd hc (by simp)
  · have h1 := hstep st w1 hc
    have h2 : fetchMeaning (fetchMeaning st w1) w2 = fetchMeaning st w1 := by
      apply hnoop
      right
      rw [← hn, h1]
      exact lookup_append_isSome st.wordMeanings (normalizeWord w1) _
    push_neg at hc
    refine ⟨fun hs => absurd hs hc.2, h2, ?_⟩
    intro _ _
    rw [h2, h1]

theorem fetchMeaning_single_request_witness :
    (fetchMeaning (fetchMeaning emptyCacheState "Apple") "apple").requests =
      emptyCacheState.requests ++ [normalizeWord "Apple"] :=
  (fetchMeaning_single_request emptyCacheState "Apple" "apple" (by decide)).2.2
    (by decide) (by decide)

/-- C10 (implicit).  A `fetchMeaning` call whose word normalizes to the
empty string (its text has no ASCII letter) is a complete no-op: no cache
record is created and no request is issued. -/
theorem fetchMeaning_empty_normalized_noop (st : PickerState) (w : String)
    (h : normalizeWord w = "") : fetchMeaning st w = st := by
  unfold fetchMeaning
  rw [if_pos (Or.inl h)]

theorem fetchMeaning_empty_normalized_noop_witness :
    fetchMeaning emptyCacheState "2024!?" = emptyCacheState :=
  fetchMeaning_empty_normalized_noop emptyCacheState "2024!?" (by decide)

/-! ### Input validation (C8) -/

theorem jsTrim_eq_nil_of_all {l : List Char} (h : l.all jsIsSpace = true) :
    jsTrim l = [] := by
  unfold jsTrim
  have h1 : l.dropWhile jsIsSpace = [] := by
    rw [List.dropWhile_eq_nil_iff]
    intro x hx
    exact List.all_eq_true.mp h x hx
  rw [h1]
  simp

/-- C8.  Blank input (empty or whitespace-only article text) is rejected
before tokenization: `handleStartPicking` returns the state unchanged, so
no token, selection, phrase or definition-cache state is created and the
mode does not switch to picking. -/
theorem handleStartPicking_rejects_blank (st : PickerState)
    (h : st.articleText.data.all jsIsSpace = true) :
    handleStartPicking st = st := by
  unfold handleStartPicking
  rw [if_pos (jsTrim_eq_nil_of_all h)]

/-- Whitespace-only article text. -/
def blankState : PickerState := ⟨"  \n\t ", PickerMode.input, [], ∅, [], [], []⟩

theorem handleStartPicking_rejects_blank_witness :
    handleStartPicking blankState = blankState :=
  handleStartPicking_rejects_blank blankState (by decide)

/-! ### Export encoder (C6) -/

/-- C6.  The `words` array of the export document is exactly the
lexicographically sorted, duplicate-free list of the normalized texts of
the selected positions not covered by any phrase; in particular a
phrase-covered position contributes nothing, selected or not. -/
theorem handleExportJson_words_spec (st : PickerState) :
    List.Sorted (fun a b : String => a ≤ b) (handleExportJson st).words ∧
    (handleExportJson st).words.Nodup ∧
    (∀ w : String, w ∈ (handleExportJson st).words ↔
      ∃ i ∈ st.selectedIndices, getPhraseForIndex st i = none ∧
        normalizeWord (tokensTextAt st i) = w) := by
  have hw : (handleExportJson st).words =
      ((Finset.sort (fun a b => a ≤ b) st.selectedIndices).filterMap
        (fun idx =>
          match getPhraseForIndex st idx with
          | some _ => none
          | none => some (normalizeWord (tokensTextAt st idx)))).dedup.mergeSort
        (fun a b => a ≤ b) := rfl
  refine ⟨?_, ?_, ?_⟩
  · rw [hw]
    have htrans : ∀ (a b c : String), decide (a ≤ b) = true → decide (b ≤ c) = true →
        decide (a ≤ c) = true := by
      intro a b c hab hbc
      simp only [decide_eq_true_eq] at hab hbc ⊢
      exact le_trans hab hbc
    have htotal : ∀ (a b : String), (decide (a ≤ b) || decide (b ≤ a)) = true := by
      intro a b
      rcases le_total a b with h | h
      · simp [h]
      · simp [h]
    have hs := @List.sorted_mergeSort String (fun a b : String => decide (a ≤ b))
      htrans htotal
      (((Finset.sort (fun a b => a ≤ b) st.selectedIndices).filterMap
        (fun idx =>
          match getPhraseForIndex st idx with
          | some _ => none
          | none => some (normalizeWord (tokensTextAt st idx)))).dedup)
    exact hs.imp (fun hab => by simpa using hab)
  · rw [hw]
    exact (List.mergeSort_perm _ _).nodup_iff.mpr (List.nodup_dedup _)
  · intro w
    rw [hw, List.mem_mergeSort, List.mem_dedup, List.mem_filterMap]
    constructor
    · rintro ⟨idx, hidx, hmatch⟩
      rw [Finset.mem_sort] at hidx
      refine ⟨idx, hidx, ?_⟩
      cases hph : getPhraseForIndex st idx with
      | some p =>
        rw [hph] at hmatch
        exact absurd hmatch (by simp)
      | none =>
        rw [hph] at hmatch
        simp only [Option.some.injEq] at hmatch
        exact ⟨rfl, hmatch⟩
    · rintro ⟨i, hi, hnone, hnorm⟩
      refine ⟨i, ?_, ?_⟩
      · rw [Finset.mem_sort]
        exact hi
      · rw [hnone]
        simp [hnorm]

/-! ### Adjacency scanner (C7) -/

theorem mem_zip_tail {α : Type _} {l : List α} {c d : α} :
    (c, d) ∈ l.zip l.tail ↔ ∃ n, l.get? n = some c ∧ l.get? (n + 1) = some d := by
  constructor
  · intro h
    rw [List.mem_iff_get?] at h
    obtain ⟨n, hn⟩ := h
    rw [List.get?_eq_getElem?, List.getElem?_zip_eq_some] at hn
    refine ⟨n, ?_, ?_⟩
    · rw [List.get?_eq_getElem?]
      exact hn.1
    · rw [List.get?_eq_getElem?, ← List.getElem?_tail]
      exact hn.2
  · rintro ⟨n, h1, h2⟩
    rw [List.mem_iff_get?]
    refine ⟨n, ?_⟩
    rw [List.get?_eq_getElem?, List.getElem?_zip_eq_some]
    rw [List.get?_eq_getElem?] at h1 h2
    refine ⟨h1, ?_⟩
    rw [List.getElem?_tail]
    exact h2

theorem samePhrase_false_iff {st : PickerState} (hd : DisjPhrases st.phrases) (a b : ℕ) :
    samePhrase st a b = false ↔ ¬∃ p ∈ st.phrases, a ∈ p ∧ b ∈ p := by
  unfold samePhrase
  cases hpa : getPhraseForIndex st a with
  | none =>
    dsimp only
    constructor
    · rintro _ ⟨p, hp, hap, _⟩
      exact getPhraseForIndex_none hpa p hp hap
    · intro _
      rfl
  | some pa =>
    cases hpb : getPhraseForIndex st b with
    | none =>
      dsimp only
      constructor
      · rintro _ ⟨p, hp, _, hbp⟩
        exact getPhraseForIndex_none hpb p hp hbp
      · intro _
        rfl
    | some pb =>
      dsimp only
      rw [decide_eq_false_iff_not]
      constructor
      · rintro hne ⟨p, hp, hap, hbp⟩
        obtain ⟨hpaP, hapa⟩ := getPhraseForIndex_some hpa
        obtain ⟨hpbP, hbpb⟩ := getPhraseForIndex_some hpb
        have hpa_eq : pa = p := by
          by_contra hne2
          exact DisjPhrases.of_ne hd hpaP hp hne2 a hapa hap
        have hpb_eq : pb = p := by
          by_contra hne2
          exact DisjPhrases.of_ne hd hpbP hp hne2 b hbpb hbp
        exact hne (hpa_eq.trans hpb_eq.symm)
      · intro hnex heq
        obtain ⟨hpaP, hapa⟩ := getPhraseForIndex_some hpa
        obtain ⟨_, hbpb⟩ := getPhraseForIndex_some hpb
        exact hnex ⟨pa, hpaP, hapa, heq.symm ▸ hbpb⟩

/-- The positions of the WORD tokens, in token order (the WORD-token
subsequence of the spec). -/
def wordPositions (st : PickerState) : List ℕ :=
  (st.tokens.filter (fun t => t.isWord)).map (fun t => t.index)

/-- Merge-candidate predicate as the spec words it: the two positions are
consecutive in the WORD-token subsequence, both selected, and not both
members of one same phrase. -/
def AdjCandidateSpec (st : PickerState) (a b : ℕ) : Prop :=
  (∃ n, (wordPositions st).get? n = some a ∧ (wordPositions st).get? (n + 1) = some b) ∧
  a ∈ st.selectedIndices ∧ b ∈ st.selectedIndices ∧
  ¬∃ p ∈ st.phrases, a ∈ p ∧ b ∈ p

theorem findAdjacentPairs_eq (st : PickerState) :
    findAdjacentPairs st =
      ((st.tokens.filter (fun t => t.isWord)).zip
        (st.tokens.filter (fun t => t.isWord)).tail).filterMap (fun cn =>
        if cn.1.index ∈ st.selectedIndices ∧ cn.2.index ∈ st.selectedIndices ∧
            samePhrase st cn.1.index cn.2.index = false
        then some (cn.1.index, cn.2.index) else none) := rfl

/-- The scenario state: "fast and furious driving" with exactly the words
fast (position 0) and furious (position 4) selected; the word between
them, and (position 2), is unselected. -/
def demoFF : PickerState := { demoInit with selectedIndices := {0, 4} }

/-- C7.  On disjoint phrase lists, the adjacency scanner reports `(a, b)`
iff the tokens at `a` and `b` are consecutive in the WORD-token
subsequence, both selected, and not both members of one same phrase; in
particular, with only "fast" and "furious" selected in
"fast and furious driving" (the intervening "and" unselected) it reports
no pair at all. -/
theorem findAdjacentPairs_iff :
    (∀ (st : PickerState) (a b : ℕ), DisjPhrases st.phrases →
      ((a, b) ∈ findAdjacentPairs st ↔ AdjCandidateSpec st a b)) ∧
    findAdjacentPairs demoFF = [] := by
  constructor
  · intro st a b hd
    rw [findAdjacentPairs_eq]
    rw [List.mem_filterMap]
    constructor
    · rintro ⟨cn, hcn, hif⟩
      by_cases hcond : (cn.1.index ∈ st.selectedIndices ∧ cn.2.index ∈ st.selectedIndices ∧
          samePhrase st cn.1.index cn.2.index = false)
      · rw [if_pos hcond] at hif
        obtain ⟨ha, hb⟩ := Prod.mk.injEq .. ▸ Option.some_injective _ hif
        obtain ⟨n, hn1, hn2⟩ := mem_zip_tail.mp hcn
        refine ⟨⟨n, ?_, ?_⟩, ha ▸ hcond.1, hb ▸ hcond.2.1, ?_⟩
        · unfold wordPositions
          rw [List.get?_map, hn1]
          simp [ha]
        · unfold wordPositions
          rw [List.get?_map, hn2]
          simp [hb]
        · rw [← ha, ← hb]
          exact (samePhrase_false_iff hd cn.1.index cn.2.index).mp hcond.2.2
      · rw [if_neg hcond] at hif
        exact absurd hif (by simp)
    · rintro ⟨⟨n, h1, h2⟩, hsel1, hsel2, hnex⟩
      unfold wordPositions at h1 h2
      rw [List.get?_map, Option.map_eq_some'] at h1 h2
      obtain ⟨t1, ht1, ha⟩ := h1
      obtain ⟨t2, ht2, hb⟩ := h2
      refine ⟨(t1, t2), mem_zip_tail.mpr ⟨n, ht1, ht2⟩, ?_⟩
      have hcond : (t1.index ∈ st.selectedIndices ∧ t2.index ∈ st.selectedIndices ∧
          samePhrase st t1.index t2.index = false) := by
        refine ⟨ha.symm ▸ hsel1, hb.symm ▸ hsel2, ?_⟩
        rw [ha, hb]
        exact (samePhrase_false_iff hd a b).mpr hnex
      rw [if_pos hcond, ha, hb]
  · decide

theorem findAdjacentPairs_iff_witness :
    ((0, 4) ∈ findAdjacentPairs demoFF ↔ AdjCandidateSpec demoFF 0 4) ∧
    findAdjacentPairs demoFF = [] :=
  ⟨findAdjacentPairs_iff.1 demoFF 0 4 List.Pairwise.nil, findAdjacentPairs_iff.2⟩

end ToonVocab
